import Mathlib

/-!
Shallow embedding of the calendar-enrichment script (src/apps-script.js).

Titles and descriptions are modelled as `List Char`.  The regex scan
`origTitle.matchAll(/:[a-z$]+:/g)` is modelled by `scanTokens`, the string
method `String.prototype.replaceAll` by `replaceAll`, and the tag table by
`titleEnrichmentsAndTypes`.  Stateful calls (`setTitle`, `setColor`) are
modelled as an explicit effect trace, and thrown errors by `Except`.
-/

/-- Character class `[a-z$]` of the tag regex. -/
def tagChar (c : Char) : Bool := ('a' ≤ c && c ≤ 'z') || c == '$'

/-- Characters that can occur in a tag token: the delimiting colon or a tag character. -/
def tagAlpha (c : Char) : Bool := c == ':' || tagChar c

/-- Splits a string into its maximal leading run of tag characters and the remainder,
exactly as the greedy `[a-z$]+` does. -/
def splitRun : List Char → List Char × List Char
  | [] => ([], [])
  | c :: cs =>
    if tagChar c then
      let p := splitRun cs
      (c :: p.1, p.2)
    else ([], c :: cs)

/-- Attempts to match the regex `:[a-z$]+:` at the start of the string.  On success
returns the matched token and the remainder after its closing colon; the greedy run
never backtracks successfully because no run character is a colon. -/
def matchAtHead : List Char → Option (List Char × List Char)
  | [] => none
  | c :: cs =>
    if c = ':' then
      match splitRun cs with
      | (run, d :: rest) =>
        if d = ':' ∧ run ≠ [] then some (':' :: (run ++ [':']), rest) else none
      | (_, []) => none
    else none

/-- Worker for the global scan: `n` counts characters of a successful match still to
be skipped (the scan resumes after the closing colon of a match, and advances by one
character after a failed position). -/
def scanAux : List Char → Nat → List (List Char)
  | [], _ => []
  | _ :: cs, n + 1 => scanAux cs n
  | c :: cs, 0 =>
    match matchAtHead (c :: cs) with
    | some (tok, _) => tok :: scanAux cs (tok.length - 1)
    | none => scanAux cs 0

/-- All non-overlapping matches of `:[a-z$]+:` in left-to-right order, as produced by
`[...origTitle.matchAll(/:[a-z$]+:/g)]`. -/
def scanTokens (s : List Char) : List (List Char) := scanAux s 0

/-- Boolean substring test, as `String.prototype.includes`. -/
def containsSub (s pat : List Char) : Bool :=
  match s with
  | [] => pat.isEmpty
  | c :: cs => pat.isPrefixOf (c :: cs) || containsSub cs pat

/-- Worker for `replaceAll`: `n` counts characters of a just-replaced occurrence still
to be consumed without being emitted (the search resumes after the replaced text). -/
def raAux (p r : List Char) : List Char → Nat → List Char
  | [], _ => []
  | _ :: cs, n + 1 => raAux p r cs n
  | c :: cs, 0 =>
    if p ≠ [] ∧ p.isPrefixOf (c :: cs) = true then r ++ raAux p r cs (p.length - 1)
    else c :: raAux p r cs 0

/-- Replaces every leftmost non-overlapping occurrence of `p` in `s` by `r`, as
`String.prototype.replaceAll` does for a plain-string pattern; the inserted
replacement text is never rescanned. -/
def replaceAll (p r s : List Char) : List Char := raAux p r s 0

/-- The six event categories appearing as `eventType` strings in the tag table. -/
inductive EventType | RUN | BIKE | BIRTHDAY | DINNER | HEALTH | GYM
deriving DecidableEq

/-- The tag table `titleEnrichmentsAndTypes`: tag string, emoji, optional event type
(`null` in the source becomes `none`). -/
def titleEnrichmentsAndTypes : List (List Char × List Char × Option EventType) := [
  ((":run:".data), ("🏃‍♂️".data), some EventType.RUN),
  ((":bike:".data), ("🚴‍♂️".data), some EventType.BIKE),
  ((":birthday:".data), ("🎉".data), some EventType.BIRTHDAY),
  ((":birth:".data), ("🎉".data), some EventType.BIRTHDAY),
  ((":compleanno:".data), ("🎉".data), some EventType.BIRTHDAY),
  ((":comple:".data), ("🎉".data), some EventType.BIRTHDAY),
  ((":dinner:".data), ("🍗".data), some EventType.DINNER),
  ((":lunch:".data), ("🍗".data), some EventType.DINNER),
  ((":cena:".data), ("🍗".data), some EventType.DINNER),
  ((":pranzo:".data), ("🍗".data), some EventType.DINNER),
  ((":hospital:".data), ("🏥".data), some EventType.HEALTH),
  ((":hosp:".data), ("🏥".data), some EventType.HEALTH),
  ((":ospedale:".data), ("🏥".data), some EventType.HEALTH),
  ((":osp:".data), ("🏥".data), some EventType.HEALTH),
  ((":workout:".data), ("💪".data), some EventType.GYM),
  ((":gym:".data), ("💪".data), some EventType.GYM),
  ((":muscle:".data), ("💪".data), some EventType.GYM),
  ((":bicep:".data), ("💪".data), some EventType.GYM),
  ((":biceps:".data), ("💪".data), some EventType.GYM),
  ((":star:".data), ("⭐".data), none),
  ((":check:".data), ("✅".data), none),
  ((":ita:".data), ("🇮🇹".data), none),
  ((":party:".data), ("🎉".data), none),
  ((":chicken:".data), ("🍗".data), none),
  ((":cross:".data), ("✝️".data), none),
  ((":death:".data), ("✝️".data), none),
  ((":$:".data), ("💰".data), none),
  ((":money:".data), ("💰".data), none),
  ((":dollar:".data), ("💰".data), none)]

/-- Exact-match lookup `titleEnrichmentsAndTypes[token]`. -/
def lookupTag (tok : List Char) : Option (List Char × Option EventType) :=
  (titleEnrichmentsAndTypes.find? (fun ent => ent.1 == tok)).map (fun ent => ent.2)

/-- The keys of the tag table. -/
def tableKeys : List (List Char) := titleEnrichmentsAndTypes.map (fun ent => ent.1)

/-- One iteration of the `forEach` body of `_updateEventTitleAndGetType`: an
unrecognized token is skipped; a recognized one is globally substituted and, while
`eventType` is still unset, may set it. -/
def enrichStep (acc : List Char × Option EventType) (tok : List Char) :
    List Char × Option EventType :=
  match lookupTag tok with
  | none => acc
  | some (emoji, ty) =>
    (replaceAll tok emoji acc.1,
     match acc.2 with
     | some a => some a
     | none => ty)

/-- The pure computation inside `_updateEventTitleAndGetType`: scan the original
title, then fold the `forEach` body over the matches, returning the new title and
the resolved event type. -/
def enrich (title : List Char) : List Char × Option EventType :=
  (scanTokens title).foldl enrichStep (title, none)

/-- Colors used by `_processEventByType` (Apps Script `CalendarApp.EventColor`). -/
inductive Color | GRAY | YELLOW | BLUE | RED | PALE_RED
deriving DecidableEq

/-- Observable calendar writes. -/
inductive Effect
  | setTitle (title : List Char)
  | setColor (color : Color)
deriving DecidableEq

/-- The error classes of the script. -/
inductive AppError | NoEventFound | EventNull | EventTypeNull
deriving DecidableEq

/-- A calendar event record as the script reads it. -/
structure Event where
  title : List Char
  description : List Char
deriving DecidableEq

/-- Identifier of an event as returned by the listing call. -/
abbrev EventId := List Char

/-- The `switch (eventType)` of `_processEventByType`, starting from `let color =
null`; every case sets a color and there is no default case. -/
def colorFor : EventType → Option Color
  | EventType.RUN => some Color.GRAY
  | EventType.BIKE => some Color.GRAY
  | EventType.BIRTHDAY => some Color.YELLOW
  | EventType.DINNER => some Color.BLUE
  | EventType.HEALTH => some Color.RED
  | EventType.GYM => some Color.PALE_RED

/-- Model of `_processEventByType`: null checks in source order, then the color
switch followed by `if (color) event.setColor(color)`. -/
def processEventByType : Option Event → Option EventType → Except AppError (List Effect)
  | none, _ => Except.error AppError.EventNull
  | some _, none => Except.error AppError.EventTypeNull
  | some _, some ty =>
    match colorFor ty with
    | some c => Except.ok [Effect.setColor c]
    | none => Except.ok []

/-- The guarded call site `if (eventType) _processEventByType({event, eventType})`
in `onCalendarUpdate`. -/
def dispatchEventType (event : Event) (eventType : Option EventType) :
    Except AppError (List Effect) :=
  match eventType with
  | some ty => processEventByType (some event) (some ty)
  | none => Except.ok []

/-- Full model of `_updateEventTitleAndGetType`: the returned event type together
with the write-back effect `if (newTitle !== origTitle) event.setTitle(newTitle)`. -/
def updateEventTitleAndGetType (origTitle : List Char) : Option EventType × List Effect :=
  let r := enrich origTitle
  (r.2, if r.1 ≠ origTitle then [Effect.setTitle r.1] else [])

/-- Model of `_getLastEditedEvent`.  The listing result is the optional `items`
array (absent when the window is empty), whose slots may be null after a deletion;
`fetch` stands for `CalendarApp.getEventById`.  The checks mirror
`if (!events.items)`, the `items[items.length-1]` access and `if (!event)`. -/
def getLastEditedEvent (items : Option (List (Option EventId))) (fetch : EventId → Event) :
    Except AppError Event :=
  match items with
  | none => Except.error AppError.NoEventFound
  | some l =>
    match l.getLast? with
    | none => Except.error AppError.NoEventFound
    | some none => Except.error AppError.NoEventFound
    | some (some id) => Except.ok (fetch id)

/-- The skip marker searched for in the description. -/
def skipMarker : List Char := ":skip:".data

/-- Model of `onCalendarUpdate`: resolve the last edited event (a `NoEventFound`
failure is caught and ends the run without effects), honour the `:skip:` marker,
enrich the title, and dispatch the color processing. -/
def onCalendarUpdate (items : Option (List (Option EventId))) (fetch : EventId → Event) :
    Except AppError (List Effect) :=
  match getLastEditedEvent items fetch with
  | Except.error e =>
    if e = AppError.NoEventFound then Except.ok [] else Except.error e
  | Except.ok event =>
    if containsSub event.description skipMarker then Except.ok []
    else
      let r := updateEventTitleAndGetType event.title
      match dispatchEventType event r.1 with
      | Except.ok colorEffects => Except.ok (r.2 ++ colorEffects)
      | Except.error e => Except.error e

/-- Position-wise test for a tag-like substring: true exactly when the tag regex
matches at some position of the string. -/
def hasTagLike : List Char → Bool
  | [] => false
  | c :: cs => (matchAtHead (c :: cs)).isSome || hasTagLike cs

/-- The per-token global substitution of the scan, ignoring category resolution. -/
def replaceStep (s : List Char) (tok : List Char) : List Char :=
  match lookupTag tok with
  | none => s
  | some p => replaceAll tok p.1 s

/-- Category of the first scan match that is in the table with a non-null category. -/
def firstCategory (toks : List (List Char)) : Option EventType :=
  (toks.filterMap (fun tok => (lookupTag tok).bind (fun p => p.2))).head?

/-! Basic lemmas about prefixes and the substring test. -/

theorem isPrefixOf_iff_append (p l : List Char) :
    p.isPrefixOf l = true ↔ ∃ t, l = p ++ t := by
  induction p generalizing l with
  | nil => simp [List.isPrefixOf]
  | cons a as ih =>
    cases l with
    | nil => simp [List.isPrefixOf]
    | cons b bs =>
      rw [show (a :: as).isPrefixOf (b :: bs) = ((a == b) && as.isPrefixOf bs) from rfl]
      rw [Bool.and_eq_true, beq_iff_eq, ih]
      constructor
      · rintro ⟨rfl, t, rfl⟩
        exact ⟨t, rfl⟩
      · rintro ⟨t, ht⟩
        simp only [List.cons_append, List.cons.injEq] at ht
        obtain ⟨rfl, rfl⟩ := ht
        exact ⟨rfl, t, rfl⟩

theorem contains_of_isPrefixOf {p s : List Char} (h : p.isPrefixOf s = true) :
    containsSub s p = true := by
  cases s with
  | nil =>
    cases p with
    | nil => rfl
    | cons a as => simp [List.isPrefixOf] at h
  | cons c cs => simp [containsSub, h]

theorem contains_cons {cs p : List Char} (c : Char) (h : containsSub cs p = true) :
    containsSub (c :: cs) p = true := by
  simp [containsSub, h]

theorem contains_append_right {X p : List Char} (pre : List Char)
    (h : containsSub X p = true) : containsSub (pre ++ X) p = true := by
  induction pre with
  | nil => exact h
  | cons c cs ih => exact contains_cons c ih

theorem contains_append_inert {p : List Char} (hp : p ≠ []) {e : List Char}
    (he : ∀ c ∈ e, c ∉ p) (X : List Char) :
    containsSub (e ++ X) p = containsSub X p := by
  induction e with
  | nil => rfl
  | cons c es ih =>
    have hnp : p.isPrefixOf (c :: (es ++ X)) = false := by
      cases hh : p.isPrefixOf (c :: (es ++ X)) with
      | false => rfl
      | true =>
        exfalso
        rcases (isPrefixOf_iff_append _ _).mp hh with ⟨t, ht⟩
        cases p with
        | nil => exact hp rfl
        | cons q qs =>
          simp only [List.cons_append, List.cons.injEq] at ht
          exact (he c (List.mem_cons_self c es)) (ht.1 ▸ List.mem_cons_self q qs)
    have hrec := ih (fun d hd => he d (List.mem_cons_of_mem _ hd))
    simp [containsSub, List.cons_append, hnp, hrec]

theorem contains_colon_free {s : List Char} (hs : (':' ∈ s) → False) (w : List Char) :
    containsSub s (':' :: w) = false := by
  induction s with
  | nil => rfl
  | cons c cs ih =>
    have h1 : (':' :: w).isPrefixOf (c :: cs) = false := by
      cases hh : (':' :: w).isPrefixOf (c :: cs) with
      | false => rfl
      | true =>
        exfalso
        obtain ⟨t, ht⟩ := (isPrefixOf_iff_append _ _).mp hh
        simp only [List.cons_append, List.cons.injEq] at ht
        exact hs (by rw [ht.1]; exact List.mem_cons_self _ _)
    have h2 := ih (fun hmem => hs (List.mem_cons_of_mem c hmem))
    simp [containsSub, h1, h2]

/-! Unfolding helpers for the structural workers. -/

theorem raAux_cons_zero (p r : List Char) (c : Char) (cs : List Char) :
    raAux p r (c :: cs) 0 =
      if p ≠ [] ∧ p.isPrefixOf (c :: cs) = true then r ++ raAux p r cs (p.length - 1)
      else c :: raAux p r cs 0 := rfl

theorem scanAux_cons_zero (c : Char) (cs : List Char) :
    scanAux (c :: cs) 0 =
      match matchAtHead (c :: cs) with
      | some (tok, _) => tok :: scanAux cs (tok.length - 1)
      | none => scanAux cs 0 := rfl

theorem matchAtHead_cons (c : Char) (cs : List Char) :
    matchAtHead (c :: cs) =
      if c = ':' then
        match splitRun cs with
        | (run, d :: rest) =>
          if d = ':' ∧ run ≠ [] then some (':' :: (run ++ [':']), rest) else none
        | (_, []) => none
      else none := rfl

/-! Structure of the split and of a successful head match. -/

theorem splitRun_append (l : List Char) : (splitRun l).1 ++ (splitRun l).2 = l := by
  induction l with
  | nil => rfl
  | cons c cs ih =>
    by_cases h : tagChar c = true
    · simp [splitRun, h, ih]
    · simp [splitRun, h]

theorem splitRun_all (l : List Char) : ∀ c ∈ (splitRun l).1, tagChar c = true := by
  induction l with
  | nil => intro c hc; simp [splitRun] at hc
  | cons a as ih =>
    by_cases h : tagChar a = true
    · intro c hc
      simp only [splitRun, h, if_true] at hc
      rcases List.mem_cons.mp hc with rfl | hc
      · exact h
      · exact ih c hc
    · intro c hc
      simp [splitRun, h] at hc

theorem matchAtHead_some {s tok rest : List Char} (h : matchAtHead s = some (tok, rest)) :
    ∃ run, run ≠ [] ∧ (∀ c ∈ run, tagChar c = true) ∧ tok = ':' :: (run ++ [':']) ∧
      s = tok ++ rest := by
  cases s with
  | nil => exact Option.noConfusion h
  | cons c cs =>
    rw [matchAtHead_cons] at h
    by_cases hc : c = ':'
    · rw [if_pos hc] at h
      rcases hsp : splitRun cs with ⟨run, rest2⟩
      rw [hsp] at h
      cases rest2 with
      | nil => exact Option.noConfusion h
      | cons d rest3 =>
        have h2 : (if d = ':' ∧ run ≠ [] then
            some ((':' :: (run ++ [':']), rest3) : List Char × List Char)
          else none) = some (tok, rest) := h
        by_cases hd : d = ':' ∧ run ≠ []
        · rw [if_pos hd] at h2
          injection h2 with h'
          injection h' with htok hrest
          refine ⟨run, hd.2, ?_, htok.symm, ?_⟩
          · intro x hx
            have := splitRun_all cs x
            rw [hsp] at this
            exact this hx
          · have hcs : run ++ (d :: rest3) = cs := by
              have := splitRun_append cs
              rw [hsp] at this
              exact this
            subst hc
            rw [← htok, ← hrest, ← hcs, hd.1]
            simp
        · rw [if_neg hd] at h2
          exact Option.noConfusion h2
    · rw [if_neg hc] at h
      exact Option.noConfusion h

/-! Occurrences of the pattern do not survive `replaceAll`, provided the replacement
text is non-empty and shares no character with the pattern. -/

theorem raAux_isPrefixOf_orig (p r : List Char) (hr : r ≠ [])
    (hd : ∀ c ∈ r, c ∉ p) :
    ∀ (s : List Char) (n : Nat) (v : List Char), v ≠ [] → (∃ q, q ++ v = p) →
      v.isPrefixOf (raAux p r s n) = true → v.isPrefixOf (s.drop n) = true := by
  intro s
  induction s with
  | nil =>
    intro n v hv _ hpre
    cases v with
    | nil => exact absurd rfl hv
    | cons a as => exact Bool.noConfusion hpre
  | cons c cs ih =>
    intro n v hv hsuf hpre
    cases n with
    | succ m => exact ih m v hv hsuf hpre
    | zero =>
      by_cases hcond : p ≠ [] ∧ p.isPrefixOf (c :: cs) = true
      · exfalso
        rw [raAux_cons_zero, if_pos hcond] at hpre
        cases v with
        | nil => exact hv rfl
        | cons a as =>
          cases r with
          | nil => exact hr rfl
          | cons b bs =>
            have hab : a = b := by
              obtain ⟨t, ht⟩ := (isPrefixOf_iff_append _ _).mp hpre
              simp only [List.cons_append, List.cons.injEq] at ht
              exact ht.1.symm
            have hbp : b ∉ p := hd b (List.mem_cons_self b bs)
            obtain ⟨q, hq⟩ := hsuf
            exact hbp (hab ▸ (hq ▸ List.mem_append_right q (List.mem_cons_self a as)))
      · rw [raAux_cons_zero, if_neg hcond] at hpre
        cases v with
        | nil => exact absurd rfl hv
        | cons a as =>
          have hac : a = c ∧ as.isPrefixOf (raAux p r cs 0) = true := by
            rw [show (a :: as).isPrefixOf (c :: raAux p r cs 0) =
              ((a == c) && as.isPrefixOf (raAux p r cs 0)) from rfl] at hpre
            rw [Bool.and_eq_true, beq_iff_eq] at hpre
            exact hpre
          rw [List.drop_zero]
          rw [show (a :: as).isPrefixOf (c :: cs) = ((a == c) && as.isPrefixOf cs) from rfl]
          rw [Bool.and_eq_true, beq_iff_eq]
          refine ⟨hac.1, ?_⟩
          cases as with
          | nil => cases cs <;> rfl
          | cons a2 as2 =>
            obtain ⟨q, hq⟩ := hsuf
            have hsuf2 : ∃ q2, q2 ++ (a2 :: as2) = p := ⟨q ++ [a], by simp [← hq]⟩
            have := ih 0 (a2 :: as2) (List.cons_ne_nil a2 as2) hsuf2 hac.2
            rw [List.drop_zero] at this
            exact this

theorem raAux_no_occ {p r : List Char} (hp2 : 2 ≤ p.length) (hr : r ≠ [])
    (hd : ∀ c ∈ r, c ∉ p) :
    ∀ (s : List Char) (n : Nat), containsSub (raAux p r s n) p = false := by
  have hpne : p ≠ [] := by
    intro h
    rw [h] at hp2
    exact absurd hp2 (by simp)
  intro s
  induction s with
  | nil =>
    intro n
    cases p with
    | nil => exact absurd rfl hpne
    | cons a as => rfl
  | cons c cs ih =>
    intro n
    cases n with
    | succ m => exact ih m
    | zero =>
      rw [raAux_cons_zero]
      by_cases hcond : p ≠ [] ∧ p.isPrefixOf (c :: cs) = true
      · rw [if_pos hcond, contains_append_inert hpne hd _]
        exact ih (p.length - 1)
      · rw [if_neg hcond]
        have h1 : containsSub (raAux p r cs 0) p = false := ih 0
        have h2 : p.isPrefixOf (c :: raAux p r cs 0) = false := by
          cases hh : p.isPrefixOf (c :: raAux p r cs 0) with
          | false => rfl
          | true =>
            exfalso
            have heq : c :: raAux p r cs 0 = raAux p r (c :: cs) 0 := by
              rw [raAux_cons_zero, if_neg hcond]
            rw [heq] at hh
            have := raAux_isPrefixOf_orig p r hr hd (c :: cs) 0 p hpne ⟨[], rfl⟩ hh
            rw [List.drop_zero] at this
            exact hcond ⟨hpne, this⟩
        simp [containsSub, h1, h2]

theorem replaceAll_no_occ {p r : List Char} (hp2 : 2 ≤ p.length) (hr : r ≠ [])
    (hd : ∀ c ∈ r, c ∉ p) (s : List Char) :
    containsSub (replaceAll p r s) p = false :=
  raAux_no_occ hp2 hr hd s 0

theorem replaceAll_of_not_contains (p r : List Char) :
    ∀ s : List Char, containsSub s p = false → replaceAll p r s = s := by
  intro s
  induction s with
  | nil => intro _; rfl
  | cons c cs ih =>
    intro h
    have h1 : p.isPrefixOf (c :: cs) = false := by
      cases hh : p.isPrefixOf (c :: cs) with
      | false => rfl
      | true => rw [containsSub, hh] at h; exact Bool.noConfusion h
    have h2 : containsSub cs p = false := by
      rw [containsSub, h1] at h
      simpa using h
    show raAux p r (c :: cs) 0 = c :: cs
    rw [raAux_cons_zero, if_neg (by simp [h1])]
    rw [show raAux p r cs 0 = cs from ih h2]

/-! Every scanned token occurs in the scanned string. -/

theorem scanAux_mem_contains :
    ∀ (s : List Char) (n : Nat) (tok : List Char), tok ∈ scanAux s n →
      containsSub s tok = true := by
  intro s
  induction s with
  | nil =>
    intro n tok h
    exact absurd h (List.not_mem_nil tok)
  | cons c cs ih =>
    intro n tok h
    cases n with
    | succ m => exact contains_cons c (ih m tok h)
    | zero =>
      rw [scanAux_cons_zero] at h
      cases hm : matchAtHead (c :: cs) with
      | none =>
        rw [hm] at h
        exact contains_cons c (ih 0 tok h)
      | some pr =>
        obtain ⟨tk, rst⟩ := pr
        rw [hm] at h
        rcases List.mem_cons.mp h with rfl | h2
        · obtain ⟨run, _, _, _, hs⟩ := matchAtHead_some hm
          exact contains_of_isPrefixOf ((isPrefixOf_iff_append _ _).mpr ⟨rst, hs⟩)
        · exact contains_cons c (ih _ tok h2)

theorem scanTokens_mem_contains {s tok : List Char} (h : tok ∈ scanTokens s) :
    containsSub s tok = true :=
  scanAux_mem_contains s 0 tok h

/-! A string with no tag-like substring scans to nothing. -/

theorem hasTagLike_false_scanAux :
    ∀ (s : List Char) (n : Nat), hasTagLike s = false → scanAux s n = [] := by
  intro s
  induction s with
  | nil => intro n _; rfl
  | cons c cs ih =>
    intro n h
    have h1 : matchAtHead (c :: cs) = none := by
      cases hm : matchAtHead (c :: cs) with
      | none => rfl
      | some p =>
        rw [hasTagLike, hm] at h
        exact Bool.noConfusion h
    have h2 : hasTagLike cs = false := by
      rw [hasTagLike, h1] at h
      simpa using h
    cases n with
    | succ m => exact ih m h2
    | zero => rw [scanAux_cons_zero, h1]; exact ih 0 h2

theorem hasTagLike_true_exists :
    ∀ s : List Char, hasTagLike s = true →
      ∃ w, w ≠ [] ∧ (∀ c ∈ w, tagChar c = true) ∧
        containsSub s (':' :: (w ++ [':'])) = true := by
  intro s
  induction s with
  | nil => intro h; exact Bool.noConfusion h
  | cons c cs ih =>
    intro h
    cases hm : matchAtHead (c :: cs) with
    | some p =>
      obtain ⟨tok, rest⟩ := p
      obtain ⟨run, hr1, hr2, htok, hs⟩ := matchAtHead_some hm
      refine ⟨run, hr1, hr2, contains_of_isPrefixOf ((isPrefixOf_iff_append _ _).mpr
        ⟨rest, ?_⟩)⟩
      rw [← htok]
      exact hs
    | none =>
      rw [hasTagLike, hm] at h
      simp only [Option.isSome_none, Bool.false_or] at h
      obtain ⟨w, h1, h2, h3⟩ := ih h
      exact ⟨w, h1, h2, contains_cons c h3⟩

/-! Projections of the enrichment fold. -/

theorem enrichStep_fst (s : List Char) (acc : Option EventType) (tok : List Char) :
    (enrichStep (s, acc) tok).1 = replaceStep s tok := by
  cases h : lookupTag tok with
  | none => simp [enrichStep, replaceStep, h]
  | some p =>
    obtain ⟨e, ty⟩ := p
    simp [enrichStep, replaceStep, h]

theorem foldl_enrichStep_fst :
    ∀ (toks : List (List Char)) (s : List Char) (acc : Option EventType),
      (toks.foldl enrichStep (s, acc)).1 = toks.foldl replaceStep s := by
  intro toks
  induction toks with
  | nil => intro s acc; rfl
  | cons tok toks ih =>
    intro s acc
    calc (List.foldl enrichStep (s, acc) (tok :: toks)).1
        = (List.foldl enrichStep
            ((enrichStep (s, acc) tok).1, (enrichStep (s, acc) tok).2) toks).1 := rfl
      _ = List.foldl replaceStep (enrichStep (s, acc) tok).1 toks := ih _ _
      _ = List.foldl replaceStep (replaceStep s tok) toks := by rw [enrichStep_fst]
      _ = List.foldl replaceStep s (tok :: toks) := rfl

theorem foldl_enrichStep_snd_some :
    ∀ (toks : List (List Char)) (s : List Char) (a : EventType),
      (toks.foldl enrichStep (s, some a)).2 = some a := by
  intro toks
  induction toks with
  | nil => intro s a; rfl
  | cons tok toks ih =>
    intro s a
    rw [List.foldl_cons]
    cases h : lookupTag tok with
    | none =>
      rw [show enrichStep (s, some a) tok = (s, some a) from by simp [enrichStep, h]]
      exact ih s a
    | some p =>
      obtain ⟨e, ty⟩ := p
      rw [show enrichStep (s, some a) tok = (replaceAll tok e s, some a) from by
        simp [enrichStep, h]]
      exact ih _ a

theorem foldl_enrichStep_snd_none :
    ∀ (toks : List (List Char)) (s : List Char),
      (toks.foldl enrichStep (s, none)).2 = firstCategory toks := by
  intro toks
  induction toks with
  | nil => intro s; rfl
  | cons tok toks ih =>
    intro s
    rw [List.foldl_cons]
    cases h : lookupTag tok with
    | none =>
      rw [show enrichStep (s, none) tok = (s, none) from by simp [enrichStep, h]]
      rw [ih s]
      simp [firstCategory, List.filterMap_cons, h]
    | some p =>
      obtain ⟨e, ty⟩ := p
      rw [show enrichStep (s, none) tok = (replaceAll tok e s, ty) from by
        simp [enrichStep, h]]
      cases ty with
      | some v =>
        rw [foldl_enrichStep_snd_some toks _ v]
        simp [firstCategory, List.filterMap_cons, h]
      | none =>
        rw [ih _]
        simp [firstCategory, List.filterMap_cons, h]

theorem foldl_enrichStep_id :
    ∀ (toks : List (List Char)) (s : List Char) (acc : Option EventType),
      (∀ tok ∈ toks, lookupTag tok = none) → toks.foldl enrichStep (s, acc) = (s, acc) := by
  intro toks
  induction toks with
  | nil => intro s acc _; rfl
  | cons tok toks ih =>
    intro s acc h
    rw [List.foldl_cons, show enrichStep (s, acc) tok = (s, acc) from by
      simp [enrichStep, h tok (List.mem_cons_self tok toks)]]
    exact ih s acc (fun x hx => h x (List.mem_cons_of_mem _ hx))

/-! Facts about the tag table. -/

theorem tableFacts :
    ∀ ent ∈ titleEnrichmentsAndTypes,
      2 ≤ ent.1.length ∧ ent.2.1 ≠ [] ∧ (∀ c ∈ ent.1, tagAlpha c = true) ∧
        (∀ c ∈ ent.2.1, tagAlpha c = false) := by decide

theorem lookupTag_mem {tok : List Char} {p : List Char × Option EventType}
    (h : lookupTag tok = some p) :
    (tok, p) ∈ titleEnrichmentsAndTypes ∧ tok ∈ tableKeys := by
  unfold lookupTag at h
  rcases hf : titleEnrichmentsAndTypes.find? (fun ent => ent.1 == tok) with _ | ent
  · rw [hf] at h
    exact Option.noConfusion h
  · rw [hf] at h
    have hp : ent.2 = p := by simpa using h
    have hpred := List.find?_some hf
    have hmem := List.mem_of_find?_eq_some hf
    obtain ⟨k, v⟩ := ent
    have hkey : k = tok := by simpa [beq_iff_eq] using hpred
    simp only at hp
    subst hp
    subst hkey
    refine ⟨hmem, ?_⟩
    exact List.mem_map_of_mem (fun ent => ent.1) hmem

theorem lookupTag_props {t e : List Char} {ty : Option EventType}
    (h : lookupTag t = some (e, ty)) :
    2 ≤ t.length ∧ e ≠ [] ∧ (∀ c ∈ e, c ∉ t) ∧ t ∈ tableKeys := by
  obtain ⟨hmem, hkey⟩ := lookupTag_mem h
  obtain ⟨h1, h2, h3, h4⟩ := tableFacts (t, e, ty) hmem
  refine ⟨h1, h2, ?_, hkey⟩
  intro c hc hct
  have hfalse := h4 c hc
  have htrue := h3 c hct
  rw [htrue] at hfalse
  exact Bool.noConfusion hfalse

/-! Fold of the per-token substitution when a single table key is involved. -/

theorem foldl_replaceStep_only (t e : List Char) (ty : Option EventType)
    (hT : lookupTag t = some (e, ty)) (hp2 : 2 ≤ t.length) (hr : e ≠ [])
    (hd : ∀ c ∈ e, c ∉ t) :
    ∀ (toks : List (List Char)) (s : List Char),
      (∀ tok ∈ toks, lookupTag tok = none ∨ tok = t) →
      toks.foldl replaceStep s = if t ∈ toks then replaceAll t e s else s := by
  intro toks
  induction toks with
  | nil => intro s _; simp
  | cons tok toks ih =>
    intro s h
    rcases h tok (List.mem_cons_self tok toks) with hn | rfl
    · have hne : tok ≠ t := by
        intro hh
        rw [hh, hT] at hn
        exact Option.noConfusion hn
      have hne2 : ¬ (t = tok) := fun hh => hne hh.symm
      rw [List.foldl_cons, show replaceStep s tok = s from by simp [replaceStep, hn]]
      rw [ih s (fun x hx => h x (List.mem_cons_of_mem _ hx))]
      simp [List.mem_cons, hne2]
    · rw [List.foldl_cons, show replaceStep s tok = replaceAll tok e s from by
        simp [replaceStep, hT]]
      rw [ih (replaceAll tok e s) (fun x hx => h x (List.mem_cons_of_mem _ hx))]
      have hmem : tok ∈ tok :: toks := List.mem_cons_self tok toks
      by_cases hm : tok ∈ toks
      · rw [if_pos hm, if_pos hmem]
        exact replaceAll_of_not_contains tok e _ (replaceAll_no_occ hp2 hr hd s)
      · rw [if_neg hm, if_pos hmem]

theorem getLastEditedEvent_some (l : List (Option EventId)) (fetch : EventId → Event) :
    getLastEditedEvent (some l) fetch =
      match l.getLast? with
      | none => Except.error AppError.NoEventFound
      | some none => Except.error AppError.NoEventFound
      | some (some id) => Except.ok (fetch id) := rfl

/-! The claims. -/

/-- C1 counterexample: the title ":a:run: :gym:" contains the table tag ":run:" as a
literal substring, yet enrich leaves that occurrence verbatim (the scan matched the
overlapping ":a:" instead) while altering other text (":gym:" becomes its emoji), so
the output is not the title with every ":run:" occurrence replaced. -/
theorem c1_counterexample :
    lookupTag (":run:".data) = some (("🏃‍♂️".data), some EventType.RUN) ∧
    containsSub (":a:run: :gym:".data) (":run:".data) = true ∧
    (enrich (":a:run: :gym:".data)).1 = (":a:run: 💪".data) ∧
    containsSub ((enrich (":a:run: :gym:".data)).1) (":run:".data) = true ∧
    (enrich (":a:run: :gym:".data)).1 ≠
      replaceAll (":run:".data) ("🏃‍♂️".data) (":a:run: :gym:".data) := by
  refine ⟨?_, ?_, ?_, ?_, ?_⟩ <;> decide

/-- C1 (amended): if the tag is itself one of the scan's matches of the title and no
other table key occurs in the title as a substring, then the enriched title is
exactly the title with every leftmost non-overlapping occurrence of the tag replaced
by its emoji and all other text unchanged, i.e. a global string substitution. -/
theorem c1_amended (title t e : List Char) (ty : Option EventType)
    (hT : lookupTag t = some (e, ty)) (hscan : t ∈ scanTokens title)
    (honly : ∀ k ∈ tableKeys, k ≠ t → containsSub title k = false) :
    (enrich title).1 = replaceAll t e title := by
  obtain ⟨hp2, hr, hd, _⟩ := lookupTag_props hT
  have honly2 : ∀ tok ∈ scanTokens title, lookupTag tok = none ∨ tok = t := by
    intro tok htok
    cases hlk : lookupTag tok with
    | none => exact Or.inl rfl
    | some p =>
      right
      by_contra hne
      have hkey := (lookupTag_mem hlk).2
      have hcon := honly tok hkey hne
      rw [scanTokens_mem_contains htok] at hcon
      exact Bool.noConfusion hcon
  rw [show (enrich title).1 = (scanTokens title).foldl replaceStep title from
    foldl_enrichStep_fst _ _ _]
  rw [foldl_replaceStep_only t e ty hT hp2 hr hd (scanTokens title) title honly2]
  rw [if_pos hscan]

/-- C1 witness: a title containing ":run:" twice and no other table key; enrich acts
as the global substitution of ":run:" by its emoji. -/
theorem c1_amended_witness :
    (enrich ("go :run: now :run:".data)).1 =
      replaceAll (":run:".data) ("🏃‍♂️".data) ("go :run: now :run:".data) :=
  c1_amended ("go :run: now :run:".data) (":run:".data) ("🏃‍♂️".data)
    (some EventType.RUN) (by decide) (by decide) (by decide)

/-- C2: colorFor is total on the six categories with their fixed colors, and for the
category value none the handler's guarded dispatch completes with no color change and
no error. -/
theorem c2_colorFor_total :
    colorFor EventType.RUN = some Color.GRAY ∧
    colorFor EventType.BIKE = some Color.GRAY ∧
    colorFor EventType.BIRTHDAY = some Color.YELLOW ∧
    colorFor EventType.DINNER = some Color.BLUE ∧
    colorFor EventType.HEALTH = some Color.RED ∧
    colorFor EventType.GYM = some Color.PALE_RED ∧
    ∀ ev : Event, dispatchEventType ev none = Except.ok [] :=
  ⟨rfl, rfl, rfl, rfl, rfl, rfl, fun _ => rfl⟩

/-- C3 counterexample: for the title ":z:$:$:osp:" the first enrichment pass yields
":z💰$:osp:" (the two overlapping ":$:" occurrences leave a colon behind), and a
second pass performs a further replacement, so enrich applied to its own output is
not a no-op on the title. -/
theorem c3_counterexample :
    (enrich ((enrich (":z:$:$:osp:".data)).1)).1 ≠ (enrich (":z:$:$:osp:".data)).1 := by
  decide

/-- C3 (amended): applying enrich to the title component of its own output is a
no-op on the title provided that output contains no table key as a literal
substring; in general overlapping tag-like tokens can defeat idempotence. -/
theorem c3_amended (title : List Char)
    (h : ∀ k ∈ tableKeys, containsSub ((enrich title).1) k = false) :
    (enrich ((enrich title).1)).1 = (enrich title).1 := by
  have hall : ∀ tok ∈ scanTokens ((enrich title).1), lookupTag tok = none := by
    intro tok htok
    cases hlk : lookupTag tok with
    | none => rfl
    | some p =>
      exfalso
      have hkey := (lookupTag_mem hlk).2
      have hc := scanTokens_mem_contains htok
      rw [h tok hkey] at hc
      exact Bool.noConfusion hc
  show ((scanTokens ((enrich title).1)).foldl enrichStep ((enrich title).1, none)).1 =
    (enrich title).1
  rw [foldl_enrichStep_id _ _ _ hall]

/-- C3 witness: the output of enriching "hi :run:" contains no table key, so a second
pass leaves it unchanged. -/
theorem c3_amended_witness :
    (enrich ((enrich ("hi :run:".data)).1)).1 = (enrich ("hi :run:".data)).1 :=
  c3_amended ("hi :run:".data) (by decide)

/-- C4: the category returned by enrich is that of the first scan-order match that is
in the table with a non-null category, and the returned title is the fold of the
per-token global substitutions, independent of category resolution. -/
theorem c4_first_category (title : List Char) :
    (enrich title).2 = firstCategory (scanTokens title) ∧
    (enrich title).1 = (scanTokens title).foldl replaceStep title :=
  ⟨foldl_enrichStep_snd_none (scanTokens title) title,
   foldl_enrichStep_fst (scanTokens title) title none⟩

/-- C5: the resolver fails, and fails with NoEventFound, exactly when the listing
has no items field, an empty items array, or a null last slot; every error it can
return is NoEventFound. -/
theorem c5_resolver_noEventFound :
    ∀ (items : Option (List (Option EventId))) (fetch : EventId → Event),
      (getLastEditedEvent items fetch = Except.error AppError.NoEventFound ↔
        items = none ∨ ∃ l, items = some l ∧
          (l.getLast? = none ∨ l.getLast? = some none)) ∧
      ((∃ e, getLastEditedEvent items fetch = Except.error e) ↔
        getLastEditedEvent items fetch = Except.error AppError.NoEventFound) := by
  intro items fetch
  cases items with
  | none =>
    exact ⟨⟨fun _ => Or.inl rfl, fun _ => rfl⟩, ⟨fun _ => rfl, fun h => ⟨_, h⟩⟩⟩
  | some l =>
    rcases hl : l.getLast? with _ | oid
    · have hres : getLastEditedEvent (some l) fetch = Except.error AppError.NoEventFound := by
        rw [getLastEditedEvent_some, hl]
      rw [hres]
      exact ⟨⟨fun _ => Or.inr ⟨l, rfl, Or.inl hl⟩, fun _ => rfl⟩,
        ⟨fun _ => rfl, fun h => ⟨_, h⟩⟩⟩
    · cases oid with
      | none =>
        have hres : getLastEditedEvent (some l) fetch = Except.error AppError.NoEventFound := by
          rw [getLastEditedEvent_some, hl]
        rw [hres]
        exact ⟨⟨fun _ => Or.inr ⟨l, rfl, Or.inr hl⟩, fun _ => rfl⟩,
          ⟨fun _ => rfl, fun h => ⟨_, h⟩⟩⟩
      | some id =>
        have hres : getLastEditedEvent (some l) fetch = Except.ok (fetch id) := by
          rw [getLastEditedEvent_some, hl]
        rw [hres]
        constructor
        · constructor
          · intro h
            exact Except.noConfusion h
          · rintro (h | ⟨l2, hl2, hcase⟩)
            · exact Option.noConfusion h
            · exfalso
              injection hl2 with hl2
              subst hl2
              rcases hcase with hc | hc
              · rw [hl] at hc
                exact Option.noConfusion hc
              · rw [hl] at hc
                injection hc with hc
                exact Option.noConfusion hc
        · constructor
          · rintro ⟨e, he⟩
            exact Except.noConfusion he
          · intro h
            exact ⟨_, h⟩

/-- C6: for a present listing whose last slot holds an identifier, the resolver
returns the full record fetched for that identifier. -/
theorem c6_resolver_last (l : List (Option EventId)) (id : EventId)
    (fetch : EventId → Event) (h : l.getLast? = some (some id)) :
    getLastEditedEvent (some l) fetch = Except.ok (fetch id) := by
  rw [getLastEditedEvent_some, h]

/-- C6 witness: with three events sorted ascending by modification time the resolver
returns the third one's full record. -/
theorem c6_resolver_last_witness :
    getLastEditedEvent (some [some ("a".data), some ("b".data), some ("c".data)])
      (fun id => { title := id, description := [] }) =
      Except.ok { title := ("c".data), description := [] } :=
  c6_resolver_last [some ("a".data), some ("b".data), some ("c".data)] ("c".data)
    (fun id => { title := id, description := [] }) (by decide)

/-- C7: if the resolved event's description contains ":skip:", the handler returns
with an empty effect trace: no setTitle and no setColor. -/
theorem c7_skip_no_effects (items : Option (List (Option EventId)))
    (fetch : EventId → Event) (ev : Event)
    (hres : getLastEditedEvent items fetch = Except.ok ev)
    (hskip : containsSub ev.description skipMarker = true) :
    onCalendarUpdate items fetch = Except.ok [] := by
  unfold onCalendarUpdate
  rw [hres]
  simp [hskip]

/-- C7 witness: an event whose description carries the skip marker produces no
effects at all. -/
theorem c7_skip_no_effects_witness :
    onCalendarUpdate (some [some ("e1".data)])
      (fun _ => { title := ("Team :dinner:".data), description := ("agenda :skip:".data) }) =
      Except.ok [] :=
  c7_skip_no_effects (some [some ("e1".data)])
    (fun _ => { title := ("Team :dinner:".data), description := ("agenda :skip:".data) })
    { title := ("Team :dinner:".data), description := ("agenda :skip:".data) }
    (by rfl) (by decide)

/-- C8: a title with no substring matching the tag pattern is returned unchanged
with category none. -/
theorem c8_no_tags (title : List Char)
    (h : ∀ w : List Char, w ≠ [] → (∀ c ∈ w, tagChar c = true) →
      containsSub title (':' :: (w ++ [':'])) = false) :
    enrich title = (title, none) := by
  have hs : hasTagLike title = false := by
    cases hh : hasTagLike title with
    | false => rfl
    | true =>
      exfalso
      obtain ⟨w, h1, h2, h3⟩ := hasTagLike_true_exists title hh
      rw [h w h1 h2] at h3
      exact Bool.noConfusion h3
  show (scanTokens title).foldl enrichStep (title, none) = (title, none)
  rw [show scanTokens title = [] from hasTagLike_false_scanAux title 0 hs]
  rfl

/-- C8 witness: a tagless title is left untouched with no category. -/
theorem c8_no_tags_witness :
    enrich ("Meeting with Bob".data) = (("Meeting with Bob".data), none) :=
  c8_no_tags ("Meeting with Bob".data)
    (fun w _ _ => contains_colon_free (by decide) (w ++ [':']))

/-- C9: the enrichment step emits a setTitle write exactly when the computed title
differs from the original, the only possible write is that single setTitle, and when
no scanned token is recognized no write at all is emitted. -/
theorem c9_setTitle_iff (title : List Char) :
    ((updateEventTitleAndGetType title).2 ≠ [] ↔ (enrich title).1 ≠ title) ∧
    ((updateEventTitleAndGetType title).2 = [] ∨
      (updateEventTitleAndGetType title).2 = [Effect.setTitle (enrich title).1]) ∧
    ((∀ tok ∈ scanTokens title, lookupTag tok = none) →
      (updateEventTitleAndGetType title).2 = []) := by
  refine ⟨?_, ?_, ?_⟩
  · by_cases h : (enrich title).1 = title
    · simp [updateEventTitleAndGetType, h]
    · simp [updateEventTitleAndGetType, h]
  · by_cases h : (enrich title).1 = title
    · exact Or.inl (by simp [updateEventTitleAndGetType, h])
    · exact Or.inr (by simp [updateEventTitleAndGetType, h])
  · intro hall
    have hid : (enrich title).1 = title := by
      show ((scanTokens title).foldl enrichStep (title, none)).1 = title
      rw [foldl_enrichStep_id _ _ _ hall]
    simp [updateEventTitleAndGetType, hid]

/-- C9 witness: a tagless title emits no write, and the iff instance holds there. -/
theorem c9_setTitle_iff_witness :
    ((updateEventTitleAndGetType ("hello".data)).2 ≠ [] ↔
      (enrich ("hello".data)).1 ≠ ("hello".data)) ∧
    (updateEventTitleAndGetType ("hello".data)).2 = [] :=
  ⟨(c9_setTitle_iff ("hello".data)).1, (c9_setTitle_iff ("hello".data)).2.2 (by decide)⟩

/-- C10: with both the event and the event type null, _processEventByType raises
EventNull, not EventTypeNull; and EventTypeNull is raised exactly when the event is
present and the event type is null. -/
theorem c10_null_checks :
    processEventByType none none = Except.error AppError.EventNull ∧
    ∀ (ev : Option Event) (ty : Option EventType),
      (processEventByType ev ty = Except.error AppError.EventTypeNull ↔
        ev ≠ none ∧ ty = none) := by
  refine ⟨rfl, ?_⟩
  intro ev ty
  cases ev with
  | none => cases ty <;> simp [processEventByType]
  | some e =>
    cases ty with
    | none => simp [processEventByType]
    | some t =>
      simp only [processEventByType]
      cases h : colorFor t <;> simp

/-! The skip-counter workers implement exactly "resume after the match". -/

theorem raAux_drop (p r : List Char) :
    ∀ (s : List Char) (n : Nat), raAux p r s n = raAux p r (s.drop n) 0 := by
  intro s
  induction s with
  | nil => intro n; cases n <;> rfl
  | cons c cs ih =>
    intro n
    cases n with
    | zero => rfl
    | succ m => exact ih m

theorem scanAux_drop :
    ∀ (s : List Char) (n : Nat), scanAux s n = scanAux (s.drop n) 0 := by
  intro s
  induction s with
  | nil => intro n; cases n <;> rfl
  | cons c cs ih =>
    intro n
    cases n with
    | zero => rfl
    | succ m => exact ih m

theorem replaceAll_head_match (p r : List Char) (s : List Char) (hp : p ≠ [])
    (h : p.isPrefixOf s = true) :
    replaceAll p r s = r ++ replaceAll p r (s.drop p.length) := by
  cases s with
  | nil =>
    cases p with
    | nil => exact absurd rfl hp
    | cons a as => exact Bool.noConfusion h
  | cons c cs =>
    show raAux p r (c :: cs) 0 = r ++ raAux p r ((c :: cs).drop p.length) 0
    rw [raAux_cons_zero, if_pos ⟨hp, h⟩, raAux_drop p r cs (p.length - 1)]
    have hdrop : (c :: cs).drop p.length = cs.drop (p.length - 1) := by
      cases p with
      | nil => exact absurd rfl hp
      | cons a as => rfl
    rw [hdrop]

theorem replaceAll_head_fail {p : List Char} (r : List Char) {c : Char} {cs : List Char}
    (h : p.isPrefixOf (c :: cs) = false) :
    replaceAll p r (c :: cs) = c :: replaceAll p r cs := by
  show raAux p r (c :: cs) 0 = c :: raAux p r cs 0
  rw [raAux_cons_zero, if_neg (by simp [h])]

theorem scanTokens_head_match {s tok rest : List Char}
    (h : matchAtHead s = some (tok, rest)) :
    scanTokens s = tok :: scanTokens rest := by
  obtain ⟨run, _, _, htok, hs⟩ := matchAtHead_some h
  cases s with
  | nil => exact Option.noConfusion h
  | cons c cs =>
    show scanAux (c :: cs) 0 = tok :: scanAux rest 0
    rw [scanAux_cons_zero, h]
    show tok :: scanAux cs (tok.length - 1) = tok :: scanAux rest 0
    rw [scanAux_drop cs (tok.length - 1)]
    have hcs : cs = (run ++ [':']) ++ rest := by
      rw [htok] at hs
      simp only [List.cons_append, List.cons.injEq] at hs
      exact hs.2
    have hlen : tok.length - 1 = (run ++ [':']).length := by
      rw [htok]
      simp
    rw [hcs, hlen, List.drop_left]

theorem scanTokens_head_fail {c : Char} {cs : List Char}
    (h : matchAtHead (c :: cs) = none) :
    scanTokens (c :: cs) = scanTokens cs := by
  show scanAux (c :: cs) 0 = scanAux cs 0
  rw [scanAux_cons_zero, h]
